import Mathlib

/-!
Verification of the dependency-ordered attribute resolution engine of
`prepared_properties.py` against its specification.

Shallow embedding conventions:
* A property declaration is identified by a natural number (its object
  reference): the Python code deduplicates with `prop not in list`, which for
  these objects is reference identity, so declarations are modelled as ids.
* The successful resolution of `prop.depends_on` (a generator of
  `getattr(owner, name)` lookups) is modelled as a function
  `deps : Nat -> List Nat` giving each declaration the list of declaration
  ids it depends on, in declaration order.  The failing lookup is modelled
  separately by `AnnotatedProperty.depends_on_resolve`.
* The `while` loop of `resolution_order` is totalised with fuel: `none`
  means the real loop has not finished within `fuel` iterations, so
  "terminates" is "some fuel returns `some`".
* Opaque payloads (annotation expressions, querysets) are modelled as `Nat`
  ids that the core never inspects, exactly as in the source.
-/

namespace PreparedProperties

/-- One iteration of the `while` loop of `resolution_order`
(`prepared_properties.py`, lines 118-125): pop the front of the deque,
append it to `props_to_annotate` unless already present (reference
identity), then `appendleft` each of its dependencies in order, which
puts the reversed dependency list at the front of the queue.  Fuel
totalises the loop; when the queue empties the reversed visited list is
returned (line 131). -/
def resolutionLoop (deps : Nat → List Nat) : Nat → List Nat → List Nat → Option (List Nat)
  | _, [], props_to_annotate => some props_to_annotate.reverse
  | 0, _ :: _, _ => none
  | fuel + 1, prop :: rest, props_to_annotate =>
    resolutionLoop deps fuel ((deps prop).reverse ++ rest)
      (if prop ∈ props_to_annotate then props_to_annotate else props_to_annotate ++ [prop])

/-- The function `resolution_order(properties)` of `prepared_properties.py`
(lines 111-131): seed the deque with the given properties and run the walk. -/
def resolution_order (deps : Nat → List Nat) (properties : List Nat) (fuel : Nat) :
    Option (List Nat) :=
  resolutionLoop deps fuel properties []

/-- The walk terminates on this input: some amount of fuel suffices. -/
def Terminates (deps : Nat → List Nat) (properties : List Nat) : Prop :=
  ∃ fuel, (resolution_order deps properties fuel).isSome

/-- The edge relation of the dependency graph: `d` is a direct dependency of
`a`, i.e. `d ∈ a.depends_on`. -/
def DepEdge (deps : Nat → List Nat) (d a : Nat) : Prop :=
  d ∈ deps a

/-- A declaration is reachable from a request: it is requested, or it is a
dependency of a reachable declaration. -/
inductive Reaches (deps : Nat → List Nat) (request : List Nat) : Nat → Prop
  | base (a : Nat) : a ∈ request → Reaches deps request a
  | step (a d : Nat) : Reaches deps request a → d ∈ deps a → Reaches deps request d

/-- The ordering invariant claimed for the output (spec P1): every dependency
of a listed declaration occurs in the list, at a strictly earlier index. -/
def ValidOrder (deps : Nat → List Nat) (out : List Nat) : Prop :=
  ∀ p ∈ out, ∀ d ∈ deps p, d ∈ out ∧ out.indexOf d < out.indexOf p

instance (deps : Nat → List Nat) (out : List Nat) : Decidable (ValidOrder deps out) :=
  inferInstanceAs (Decidable (∀ p ∈ out, ∀ d ∈ deps p, d ∈ out ∧ out.indexOf d < out.indexOf p))

/-- The dependency relation has no cycle among the first `n` declarations:
no declaration strictly depends on itself (spec section 4.2). -/
def Acyclic (deps : Nat → List Nat) (n : Nat) : Prop :=
  ∀ a, a < n → ¬ Relation.TransGen (DepEdge deps) a a

/-- All dependency edges of the first `n` declarations stay among the first
`n` declarations (the schema owns finitely many declarations). -/
def ClosedBelow (deps : Nat → List Nat) (n : Nat) : Prop :=
  ∀ a, a < n → ∀ d ∈ deps a, d < n

/-- The diamond dependency graph of spec P5: `0` is C, `1` is A, `2` is B,
`3` is D; A and B depend on C, D depends on A and B. -/
def diamondDeps : Nat → List Nat
  | 1 => [0]
  | 2 => [0]
  | 3 => [1, 2]
  | _ => []

/-- A declaration listing itself as a dependency (spec Scenario 4). -/
def selfLoopDeps : Nat → List Nat
  | 0 => [0]
  | _ => []

/-- A two element dependency cycle: `0` and `1` depend on each other. -/
def twoCycleDeps : Nat → List Nat
  | 0 => [1]
  | 1 => [0]
  | _ => []

/-- A dependency graph with no edges at all. -/
def noDeps : Nat → List Nat := fun _ => []

/-- The field names of a schema holding two distinct declarations that happen
to share the name `count` (distinct object references, equal names). -/
def sharedFieldName : Nat → String := fun _ => "count"

namespace NamedDescriptor

/-- A record instance as the descriptor protocol sees it: the mapping
`_properties_cache` from field name to stored value (missing attribute and
empty dict coincide: both make every lookup fail, as in
`getattr(instance, "_properties_cache", {})[self.field_name]`). -/
structure Instance (Val : Type) where
  cache : String → Option Val

/-- The possible outcomes of `NamedDescriptor.__get__`
(`prepared_properties.py`, lines 26-44). -/
inductive GetOutcome (Val : Type)
  | descriptor : GetOutcome Val
  | value (v : Val) : GetOutcome Val
  | unboundError : GetOutcome Val
  | unpreparedWarning (v : Val) : GetOutcome Val
  deriving DecidableEq

/-- The method `NamedDescriptor.__get__` (lines 26-44): class access (no
instance) returns the descriptor itself; otherwise the cached value is
returned when present; on a cache miss, no getter raises an
`AttributeError`, and a supplied getter warns and returns its on-demand
result. -/
def get {Val : Type} (field_name : String) (getter : Option (Instance Val → Val)) :
    Option (Instance Val) → GetOutcome Val
  | none => .descriptor
  | some instance_ =>
    match instance_.cache field_name with
    | some v => .value v
    | none =>
      match getter with
      | none => .unboundError
      | some g => .unpreparedWarning (g instance_)

/-- The method `NamedDescriptor.__set__` (lines 47-52): store the value in
the per-instance property cache under the field name of this descriptor. -/
def set {Val : Type} (field_name : String) (value : Val) (instance_ : Instance Val) :
    Instance Val :=
  ⟨fun k => if k = field_name then some value else instance_.cache k⟩

end NamedDescriptor

namespace AnnotatedProperty

/-- The `AttributeError` raised by `getattr(self.owner, prop_name)` when a
declared dependency name is not an attribute of the owning schema; the spec
calls this failure mode `ResolutionError`. -/
inductive ResolutionError
  | attributeNotFound (name : String)
  deriving DecidableEq

/-- Iterating the generator returned by `AnnotatedProperty.depends_on`
(`prepared_properties.py`, lines 80-84): each stored name is looked up on
the owner in order; the first name the owner does not know fails the
iteration with a lookup error. -/
def depends_on_resolve (owner : String → Option Nat) :
    List String → Except ResolutionError (List Nat)
  | [] => .ok []
  | name :: rest =>
    match owner name with
    | none => .error (.attributeNotFound name)
    | some p =>
      match depends_on_resolve owner rest with
      | .error e => .error e
      | .ok ps => .ok (p :: ps)

end AnnotatedProperty

namespace PropertiedQueryset

/-- The arguments `PropertiedQueryset.prepare` accepts: annotated property
declarations (graph node ids), prefetched property declarations
(`m2m_name`, opaque queryset payload, `field_name`), or any other object. -/
inductive PrepareArg
  | annotated (p : Nat)
  | prefetched (m2m_name : String) (queryset : Nat) (field_name : String)
  | other (o : Nat)
  deriving DecidableEq

/-- An `isinstance` test selecting the property declarations among the
arguments of `prepare`. -/
def PrepareArg.isProperty : PrepareArg → Bool
  | .annotated _ => true
  | .prefetched _ _ _ => true
  | .other _ => false

/-- The state a queryset accumulates: `annotate` calls as (field name,
annotation payload) pairs in application order, and `prefetch_related`
calls as (m2m name, queryset payload, to_attr) triples. -/
structure QS where
  annotations : List (String × Nat)
  prefetches : List (String × Nat × String)
  deriving DecidableEq

/-- The method `annotate_properties` (lines 142-149): sort the given
annotated properties with `resolution_order`, then annotate each in order
under its field name.  The fold of `qs.annotate` over the order appends the
(field name, annotation payload) pairs in order. -/
def annotate_properties (deps : Nat → List Nat) (field_nameOf : Nat → String)
    (annotationOf : Nat → Nat) (qs : QS) (properties : List Nat) (fuel : Nat) : Option QS :=
  match resolution_order deps properties fuel with
  | none => none
  | some order => some ⟨qs.annotations ++ order.map (fun p => (field_nameOf p, annotationOf p)),
      qs.prefetches⟩

/-- The method `prefetch_properties` (lines 151-158): for each prefetched
property in the given order, add a `Prefetch(m2m_name, queryset, to_attr =
field_name)` to the queryset. -/
def prefetch_properties (qs : QS) (properties : List (String × Nat × String)) : QS :=
  ⟨qs.annotations, qs.prefetches ++ properties⟩

/-- The method `prepare` (lines 135-140): pass the arguments that are
`AnnotatedProperty` instances to `annotate_properties` and the arguments
that are `PrefetchedProperty` instances to `prefetch_properties`. -/
def prepare (deps : Nat → List Nat) (field_nameOf : Nat → String) (annotationOf : Nat → Nat)
    (qs : QS) (args : List PrepareArg) (fuel : Nat) : Option QS :=
  match annotate_properties deps field_nameOf annotationOf qs
      (args.filterMap fun a => match a with | .annotated p => some p | _ => none) fuel with
  | none => none
  | some qs1 => some (prefetch_properties qs1
      (args.filterMap fun a =>
        match a with | .prefetched m q f => some (m, q, f) | _ => none))

end PropertiedQueryset

/-- A rank certifying that the diamond dependency graph is acyclic. -/
def diamondRank : Nat → Nat
  | 1 => 1
  | 2 => 1
  | 3 => 2
  | _ => 0

/-- An owning schema that knows no attribute at all. -/
def emptyOwner : String → Option Nat := fun _ => none

/-- A record instance on which no property was ever prepared. -/
def emptyInstance : NamedDescriptor.Instance Nat := ⟨fun _ => none⟩

instance (deps : Nat → List Nat) (n : Nat) : Decidable (ClosedBelow deps n) :=
  inferInstanceAs (Decidable (∀ a, a < n → ∀ d ∈ deps a, d < n))

/-! Basic facts about the resolution walk. -/

lemma resolutionLoop_nil (deps : Nat → List Nat) (fuel : Nat) (visited : List Nat) :
    resolutionLoop deps fuel [] visited = some visited.reverse := by
  cases fuel <;> rfl

lemma resolutionLoop_cons (deps : Nat → List Nat) (fuel : Nat) (p : Nat) (rest visited : List Nat) :
    resolutionLoop deps (fuel + 1) (p :: rest) visited =
      resolutionLoop deps fuel ((deps p).reverse ++ rest)
        (if p ∈ visited then visited else visited ++ [p]) := rfl

/-- Adding fuel never changes a finished run: the walk is a deterministic
loop and fuel only totalises it. -/
lemma resolutionLoop_mono (deps : Nat → List Nat) :
    ∀ fuel k queue visited out, resolutionLoop deps fuel queue visited = some out →
      resolutionLoop deps (fuel + k) queue visited = some out := by
  intro fuel
  induction fuel with
  | zero =>
    intro k queue visited out h
    cases queue with
    | nil => simpa [resolutionLoop_nil] using h
    | cons p rest => simp [resolutionLoop] at h
  | succ fuel ih =>
    intro k queue visited out h
    cases queue with
    | nil => simpa [resolutionLoop_nil] using h
    | cons p rest =>
      rw [resolutionLoop_cons] at h
      have : fuel + 1 + k = (fuel + k) + 1 := by omega
      rw [this, resolutionLoop_cons]
      exact ih k _ _ _ h

/-- On the self-dependent declaration the queue is `[0]` forever: the walk
never finishes, whatever the fuel. -/
lemma resolutionLoop_selfLoop_none :
    ∀ fuel visited, resolutionLoop selfLoopDeps fuel [0] visited = none := by
  intro fuel
  induction fuel with
  | zero => intro visited; rfl
  | succ fuel ih =>
    intro visited
    rw [resolutionLoop_cons]
    exact ih _

/-- On the two element cycle the queue alternates between `[0]` and `[1]`
forever: the walk never finishes, whatever the fuel. -/
lemma resolutionLoop_twoCycle_none :
    ∀ fuel a visited, a = 0 ∨ a = 1 → resolutionLoop twoCycleDeps fuel [a] visited = none := by
  intro fuel
  induction fuel with
  | zero => intro a visited _; rfl
  | succ fuel ih =>
    intro a visited ha
    rw [resolutionLoop_cons]
    rcases ha with h | h <;> subst h
    · exact ih 1 _ (Or.inr rfl)
    · exact ih 0 _ (Or.inl rfl)

/-! Termination of the walk on finite acyclic dependency graphs.  The key
measure is the multiset of queue entries: popping `p` replaces one copy of
`p` by the (reversed) list of its dependencies, each strictly below `p` in
the dependency relation, which is the `CutExpand` move of the hydra game. -/

/-- The dependency edge relation restricted to the `n` declarations of the
schema, as a relation on all of `Nat` with everything outside the schema
minimal. -/
def DepEdgeBelow (deps : Nat → List Nat) (n : Nat) (d a : Nat) : Prop :=
  a < n ∧ d ∈ deps a

/-- On a finite schema an acyclic dependency relation is well founded. -/
lemma wellFounded_depEdgeBelow (deps : Nat → List Nat) (n : Nat)
    (hclosed : ClosedBelow deps n) (hacyc : Acyclic deps n) :
    WellFounded (DepEdgeBelow deps n) := by
  set rS : Fin n → Fin n → Prop := fun d a => d.val ∈ deps a.val with hrS
  haveI : IsTrans (Fin n) (Relation.TransGen rS) := ⟨fun _ _ _ => Relation.TransGen.trans⟩
  haveI : IsIrrefl (Fin n) (Relation.TransGen rS) := by
    refine ⟨fun x hx => hacyc x.val x.isLt ?_⟩
    exact Relation.TransGen.lift Fin.val (fun a b h => h) hx
  have wfTG : WellFounded (Relation.TransGen rS) := Finite.wellFounded_of_trans_of_irrefl _
  have wfS : WellFounded rS :=
    Subrelation.wf (fun h => Relation.TransGen.single h) wfTG
  have accS : ∀ x : Fin n, Acc (DepEdgeBelow deps n) x.val := by
    intro x
    refine @WellFounded.induction (Fin n) rS wfS (fun x => Acc (DepEdgeBelow deps n) x.val) x ?_
    intro y ih
    refine Acc.intro y.val fun d hd => ?_
    exact ih ⟨d, hclosed y.val y.isLt d hd.2⟩ hd.2
  refine ⟨fun a => ?_⟩
  by_cases ha : a < n
  · exact accS ⟨a, ha⟩
  · exact Acc.intro a fun d hd => absurd hd.1 ha

/-- Every queue of schema declarations is eventually drained when the
dependency relation is acyclic on the finite schema: each loop iteration is
a `CutExpand` move on the multiset of queue entries. -/
lemma resolutionLoop_terminates (deps : Nat → List Nat) (n : Nat)
    (hclosed : ClosedBelow deps n) (hacyc : Acyclic deps n) :
    ∀ (m : Multiset Nat) (queue visited : List Nat), (∀ q ∈ queue, q < n) →
      (queue : Multiset Nat) = m →
      ∃ fuel, (resolutionLoop deps fuel queue visited).isSome := by
  have wfCE : WellFounded (Relation.CutExpand (DepEdgeBelow deps n)) :=
    (wellFounded_depEdgeBelow deps n hclosed hacyc).cutExpand
  intro m
  refine @WellFounded.induction (Multiset Nat) _ wfCE
    (fun m => ∀ (queue visited : List Nat), (∀ q ∈ queue, q < n) → (queue : Multiset Nat) = m →
      ∃ fuel, (resolutionLoop deps fuel queue visited).isSome) m ?_
  intro m ih queue visited hq hm
  cases queue with
  | nil => exact ⟨0, by rw [resolutionLoop_nil]; rfl⟩
  | cons p rest =>
    have hpn : p < n := hq p (List.mem_cons_self p rest)
    have hstep : Relation.CutExpand (DepEdgeBelow deps n)
        (((deps p).reverse ++ rest : List Nat) : Multiset Nat) m := by
      rw [← hm]
      have h1 : (((deps p).reverse ++ rest : List Nat) : Multiset Nat) =
          ((deps p).reverse : Multiset Nat) + (rest : Multiset Nat) :=
        (Multiset.coe_add _ _).symm
      have h2 : ((p :: rest : List Nat) : Multiset Nat) = {p} + (rest : Multiset Nat) := by
        rw [Multiset.singleton_add, Multiset.cons_coe]
      rw [h1, h2]
      refine (Relation.cutExpand_add_right (rest : Multiset Nat)).mpr ?_
      refine Relation.cutExpand_singleton ?_
      intro d hd
      refine ⟨hpn, ?_⟩
      rw [Multiset.mem_coe, List.mem_reverse] at hd
      exact hd
    have hq2 : ∀ q ∈ (deps p).reverse ++ rest, q < n := by
      intro q hmem
      rcases List.mem_append.mp hmem with h | h
      · exact hclosed p hpn q (List.mem_reverse.mp h)
      · exact hq q (List.mem_cons_of_mem p h)
    obtain ⟨fuel, hfuel⟩ := ih _ hstep ((deps p).reverse ++ rest)
      (if p ∈ visited then visited else visited ++ [p]) hq2 rfl
    exact ⟨fuel + 1, by rw [resolutionLoop_cons]; exact hfuel⟩

/-- Termination of `resolution_order` on a request over a finite acyclic
dependency relation. -/
lemma terminates_of_acyclic (deps : Nat → List Nat) (n : Nat) (request : List Nat)
    (hclosed : ClosedBelow deps n) (hreq : ∀ a ∈ request, a < n) (hacyc : Acyclic deps n) :
    Terminates deps request := by
  obtain ⟨fuel, hfuel⟩ := resolutionLoop_terminates deps n hclosed hacyc
    (request : Multiset Nat) request [] hreq rfl
  exact ⟨fuel, hfuel⟩

/-- A strictly decreasing rank certifies acyclicity: along any nonempty
dependency chain ending below `n` the rank strictly increases, so no
declaration can reach itself. -/
lemma transGen_rank_lt (deps : Nat → List Nat) (n : Nat) (rank : Nat → Nat)
    (hclosed : ClosedBelow deps n)
    (hrank : ∀ a, a < n → ∀ d ∈ deps a, rank d < rank a) :
    ∀ x y, Relation.TransGen (DepEdge deps) x y → y < n → rank x < rank y ∧ x < n := by
  intro x y h
  induction h with
  | single hxy =>
    intro hy
    exact ⟨hrank _ hy _ hxy, hclosed _ hy _ hxy⟩
  | tail _ hby ih =>
    intro hy
    have hb := hrank _ hy _ hby
    have hbn := hclosed _ hy _ hby
    obtain ⟨h1, h2⟩ := ih hbn
    exact ⟨h1.trans hb, h2⟩

/-- A rank function strictly decreasing along dependency edges certifies
that the schema dependency relation is acyclic. -/
lemma acyclic_of_rank (deps : Nat → List Nat) (n : Nat) (rank : Nat → Nat)
    (hclosed : ClosedBelow deps n)
    (hrank : ∀ a, a < n → ∀ d ∈ deps a, rank d < rank a) :
    Acyclic deps n := by
  intro a ha h
  exact absurd (transGen_rank_lt deps n rank hclosed hrank a a h ha).1 (lt_irrefl _)

/-! Completeness and deduplication of the collected list. -/

/-- A collection containing the request and closed under dependency edges
contains every reachable declaration. -/
lemma reaches_mem_of_closed (deps : Nat → List Nat) (request S : List Nat)
    (hreq : ∀ a ∈ request, a ∈ S) (hclosed : ∀ v ∈ S, ∀ d ∈ deps v, d ∈ S) :
    ∀ a, Reaches deps request a → a ∈ S := by
  intro a h
  induction h with
  | base a ha => exact hreq a ha
  | step a d _ hd ih => exact hclosed a ih d hd

/-- Loop invariant of the walk: the visited list stays duplicate free and
reachable, the queue stays reachable, every requested declaration is in the
visited list or still queued, and every dependency of a visited declaration
is in the visited list or still queued.  A finished run therefore returns
exactly the reachable declarations, each once. -/
lemma resolutionLoop_spec (deps : Nat → List Nat) (request : List Nat) :
    ∀ (fuel : Nat) (queue visited out : List Nat),
      resolutionLoop deps fuel queue visited = some out →
      visited.Nodup →
      (∀ v ∈ visited, Reaches deps request v) →
      (∀ q ∈ queue, Reaches deps request q) →
      (∀ a ∈ request, a ∈ visited ∨ a ∈ queue) →
      (∀ v ∈ visited, ∀ d ∈ deps v, d ∈ visited ∨ d ∈ queue) →
      out.Nodup ∧ ∀ a, a ∈ out ↔ Reaches deps request a := by
  intro fuel
  induction fuel with
  | zero =>
    intro queue visited out h hnd hvr hqr hreq hcl
    cases queue with
    | nil =>
      rw [resolutionLoop_nil] at h
      obtain rfl : visited.reverse = out := Option.some.inj h
      constructor
      · exact List.nodup_reverse.mpr hnd
      · intro a
        constructor
        · intro ha
          exact hvr a (List.mem_reverse.mp ha)
        · intro ha
          rw [List.mem_reverse]
          refine reaches_mem_of_closed deps request visited ?_ ?_ a ha
          · intro b hb
            rcases hreq b hb with h | h
            · exact h
            · exact absurd h (List.not_mem_nil b)
          · intro v hv d hd
            rcases hcl v hv d hd with h | h
            · exact h
            · exact absurd h (List.not_mem_nil d)
    | cons p rest => simp [resolutionLoop] at h
  | succ fuel ih =>
    intro queue visited out h hnd hvr hqr hreq hcl
    cases queue with
    | nil =>
      exact ih [] visited out (by rwa [resolutionLoop_nil] at h ⊢) hnd hvr hqr
        (fun a ha => hreq a ha) hcl
    | cons p rest =>
      rw [resolutionLoop_cons] at h
      have hpr : Reaches deps request p := hqr p (List.mem_cons_self p rest)
      by_cases hpv : p ∈ visited
      · rw [if_pos hpv] at h
        refine ih _ _ _ h hnd hvr ?_ ?_ ?_
        · intro q hq
          rcases List.mem_append.mp hq with hq | hq
          · exact Reaches.step p q hpr (List.mem_reverse.mp hq)
          · exact hqr q (List.mem_cons_of_mem p hq)
        · intro a ha
          rcases hreq a ha with h1 | h1
          · exact Or.inl h1
          · rcases List.mem_cons.mp h1 with h1 | h1
            · exact Or.inl (h1 ▸ hpv)
            · exact Or.inr (List.mem_append.mpr (Or.inr h1))
        · intro v hv d hd
          rcases hcl v hv d hd with h1 | h1
          · exact Or.inl h1
          · rcases List.mem_cons.mp h1 with h1 | h1
            · exact Or.inl (h1 ▸ hpv)
            · exact Or.inr (List.mem_append.mpr (Or.inr h1))
      · rw [if_neg hpv] at h
        refine ih _ _ _ h ?_ ?_ ?_ ?_ ?_
        · simp [List.nodup_append, hnd, hpv]
        · intro v hv
          rcases List.mem_append.mp hv with h1 | h1
          · exact hvr v h1
          · rcases List.mem_singleton.mp h1 with rfl
            exact hpr
        · intro q hq
          rcases List.mem_append.mp hq with hq | hq
          · exact Reaches.step p q hpr (List.mem_reverse.mp hq)
          · exact hqr q (List.mem_cons_of_mem p hq)
        · intro a ha
          rcases hreq a ha with h1 | h1
          · exact Or.inl (List.mem_append.mpr (Or.inl h1))
          · rcases List.mem_cons.mp h1 with h1 | h1
            · exact Or.inl (List.mem_append.mpr (Or.inr (List.mem_singleton.mpr h1)))
            · exact Or.inr (List.mem_append.mpr (Or.inr h1))
        · intro v hv d hd
          rcases List.mem_append.mp hv with h1 | h1
          · rcases hcl v h1 d hd with h2 | h2
            · exact Or.inl (List.mem_append.mpr (Or.inl h2))
            · rcases List.mem_cons.mp h2 with h2 | h2
              · exact Or.inl (List.mem_append.mpr (Or.inr (List.mem_singleton.mpr h2)))
              · exact Or.inr (List.mem_append.mpr (Or.inr h2))
          · rcases List.mem_singleton.mp h1 with rfl
            exact Or.inr (List.mem_append.mpr (Or.inl (List.mem_reverse.mpr hd)))

/-! The claims. -/

/-- Claim C1: the spec asserts that for every acyclic request the sequence
returned by `resolution_order` is a valid topological order.  The code
violates this on the diamond graph of spec P5: requesting declaration `3`
yields `[1, 0, 2, 3]`, in which declaration `1` precedes its own dependency
`0`; the first-occurrence deduplication of the walk keeps a shared
dependency at the position of its shallowest discovery, which is too late
once the list is reversed.  This theorem evaluates the code at the failing
input. -/
theorem resolution_order_diamond_breaks_ordering :
    resolution_order diamondDeps [3] 10 = some [1, 0, 2, 3] ∧
      ¬ ValidOrder diamondDeps [1, 0, 2, 3] :=
  ⟨rfl, by decide⟩

/-- Claim C2: a finished run of `resolution_order` returns exactly the
requested declarations and their transitive dependencies, each exactly
once; on a finite acyclic dependency relation such a finished run exists. -/
theorem resolution_order_complete (deps : Nat → List Nat) (n : Nat) (request : List Nat)
    (hclosed : ClosedBelow deps n) (hreq : ∀ a ∈ request, a < n) (hacyc : Acyclic deps n) :
    ∃ fuel out, resolution_order deps request fuel = some out ∧ out.Nodup ∧
      ∀ a, a ∈ out ↔ Reaches deps request a := by
  obtain ⟨fuel, hfuel⟩ := terminates_of_acyclic deps n request hclosed hreq hacyc
  obtain ⟨out, hout⟩ := Option.isSome_iff_exists.mp hfuel
  refine ⟨fuel, out, hout, ?_⟩
  exact resolutionLoop_spec deps request fuel request [] out hout List.nodup_nil
    (by simp) (fun q hq => Reaches.base q hq) (fun a ha => Or.inr ha) (by simp)

/-- Concrete run of claim C2 on the diamond graph of spec P5. -/
theorem resolution_order_complete_witness :
    (ClosedBelow diamondDeps 4 ∧ (∀ a ∈ [3], a < 4) ∧ Acyclic diamondDeps 4) ∧
      (∃ fuel out, resolution_order diamondDeps [3] fuel = some out ∧ out.Nodup ∧
        ∀ a, a ∈ out ↔ Reaches diamondDeps [3] a) := by
  have hacyc : Acyclic diamondDeps 4 :=
    acyclic_of_rank diamondDeps 4 diamondRank (by decide) (by decide)
  exact ⟨⟨by decide, by decide, hacyc⟩,
    resolution_order_complete diamondDeps 4 [3] (by decide) (by decide) hacyc⟩

/-- Claim C3: the spec requires a `CyclicDependencyError` on a cyclic
request, but the code defines no such error and its walk pushes the
dependencies even of already visited declarations, so on the
self-dependent declaration of spec Scenario 4 the loop never finishes:
no amount of fuel makes the walk return. -/
theorem resolution_order_self_cycle_diverges :
    ∀ fuel, resolution_order selfLoopDeps [0] fuel = none := by
  intro fuel
  show resolutionLoop selfLoopDeps fuel [0] [] = none
  exact resolutionLoop_selfLoop_none fuel []

/-- Claim C4 counterexample: the claim says the walk terminates on every
input because visited declarations are filtered, but the filter only guards
the visited list, not the dependency pushes, so on the two element cycle
the queue alternates between `[0]` and `[1]` forever. -/
theorem resolution_order_two_cycle_diverges : ¬ Terminates twoCycleDeps [0] := by
  rintro ⟨fuel, h⟩
  have h0 : resolutionLoop twoCycleDeps fuel [0] [] = none :=
    resolutionLoop_twoCycle_none fuel 0 [] (Or.inl rfl)
  have : (resolution_order twoCycleDeps [0] fuel).isSome = false := by
    show (resolutionLoop twoCycleDeps fuel [0] []).isSome = false
    rw [h0]
    rfl
  rw [this] at h
  exact Bool.noConfusion h

/-- Claim C4 amended: `resolution_order` terminates on every request whose
dependency relation on the finite schema is acyclic (on a cyclic reachable
relation the walk loops forever, see the counterexample). -/
theorem resolution_order_terminates_of_acyclic (deps : Nat → List Nat) (n : Nat)
    (request : List Nat) (hclosed : ClosedBelow deps n) (hreq : ∀ a ∈ request, a < n)
    (hacyc : Acyclic deps n) : Terminates deps request :=
  terminates_of_acyclic deps n request hclosed hreq hacyc

/-- Concrete run of the amended claim C4 on the diamond graph. -/
theorem resolution_order_terminates_of_acyclic_witness :
    (ClosedBelow diamondDeps 4 ∧ (∀ a ∈ [3, 2], a < 4) ∧ Acyclic diamondDeps 4) ∧
      Terminates diamondDeps [3, 2] := by
  have hacyc : Acyclic diamondDeps 4 :=
    acyclic_of_rank diamondDeps 4 diamondRank (by decide) (by decide)
  exact ⟨⟨by decide, by decide, hacyc⟩,
    resolution_order_terminates_of_acyclic diamondDeps 4 [3, 2] (by decide) (by decide) hacyc⟩

/-- Claim C5: `resolution_order` is deterministic.  The walk is a pure
function of the request and the dependency lists; in the embedding the only
extra parameter is the totalising fuel, and any two finished runs agree,
whatever their fuel. -/
theorem resolution_order_deterministic (deps : Nat → List Nat) (request : List Nat)
    (fuel1 fuel2 : Nat) (out1 out2 : List Nat)
    (h1 : resolution_order deps request fuel1 = some out1)
    (h2 : resolution_order deps request fuel2 = some out2) : out1 = out2 := by
  have g1 : resolutionLoop deps fuel1 request [] = some out1 := h1
  have g2 : resolutionLoop deps fuel2 request [] = some out2 := h2
  have m1 := resolutionLoop_mono deps fuel1 fuel2 request [] out1 g1
  have m2 := resolutionLoop_mono deps fuel2 fuel1 request [] out2 g2
  rw [Nat.add_comm fuel2 fuel1] at m2
  exact Option.some.inj (m1.symm.trans m2)

/-- Concrete double run of claim C5 on the diamond graph. -/
theorem resolution_order_deterministic_witness :
    (resolution_order diamondDeps [3] 10 = some [1, 0, 2, 3] ∧
      resolution_order diamondDeps [3] 11 = some [1, 0, 2, 3]) ∧
      ([1, 0, 2, 3] : List Nat) = [1, 0, 2, 3] :=
  ⟨⟨rfl, rfl⟩,
    resolution_order_deterministic diamondDeps [3] 10 11 [1, 0, 2, 3] [1, 0, 2, 3] rfl rfl⟩

/-- Claim C6: deduplication is by object reference, not by field name.
Declarations `0` and `1` are distinct references sharing the field name
`count`, and both are kept in the output; requesting the very same
reference twice keeps it once, because the visited check compares
references.  Field names do not even reach `resolution_order`. -/
theorem resolution_order_identity_not_name :
    sharedFieldName 0 = sharedFieldName 1 ∧ (0 : Nat) ≠ 1 ∧
      resolution_order noDeps [0, 1] 5 = some [1, 0] ∧
      resolution_order noDeps [0, 0] 5 = some [0] :=
  ⟨rfl, by decide, rfl, rfl⟩

/-- Claim C7: when a declared dependency name cannot be found on the owning
schema, iterating the dependencies fails with the lookup error, surfaced at
the first missing name. -/
theorem depends_on_missing_name_fails (owner : String → Option Nat) (names : List String)
    (h : ∃ name ∈ names, owner name = none) :
    ∃ name ∈ names, owner name = none ∧
      AnnotatedProperty.depends_on_resolve owner names =
        Except.error (AnnotatedProperty.ResolutionError.attributeNotFound name) := by
  induction names with
  | nil => simp at h
  | cons name rest ih =>
    cases howner : owner name with
    | none =>
      exact ⟨name, List.mem_cons_self _ _, howner,
        by simp [AnnotatedProperty.depends_on_resolve, howner]⟩
    | some p =>
      obtain ⟨nm, hmem, hnone⟩ := h
      have hne : nm ≠ name := by
        intro e
        rw [e, howner] at hnone
        exact Option.noConfusion hnone
      have hrest : ∃ nm ∈ rest, owner nm = none := by
        refine ⟨nm, ?_, hnone⟩
        rcases List.mem_cons.mp hmem with h1 | h1
        · exact absurd h1 hne
        · exact h1
      obtain ⟨nm2, hmem2, hnone2, herr2⟩ := ih hrest
      refine ⟨nm2, List.mem_cons_of_mem _ hmem2, hnone2, ?_⟩
      simp [AnnotatedProperty.depends_on_resolve, howner, herr2]

/-- Concrete missing-name lookup for claim C7: an owner that knows no
attribute fails the iteration of a one element dependency list. -/
theorem depends_on_missing_name_fails_witness :
    (∃ name ∈ ["people_count"], emptyOwner name = none) ∧
      ∃ name ∈ ["people_count"], emptyOwner name = none ∧
        AnnotatedProperty.depends_on_resolve emptyOwner ["people_count"] =
          Except.error (AnnotatedProperty.ResolutionError.attributeNotFound name) :=
  ⟨⟨"people_count", List.mem_cons_self _ _, rfl⟩,
    depends_on_missing_name_fails emptyOwner ["people_count"]
      ⟨"people_count", List.mem_cons_self _ _, rfl⟩⟩

/-- Claim C8: accessing a declared property never prepared on the instance
raises when the declaration has no getter, and with a getter it warns and
returns the on demand result of the getter; prepared properties on any
instance are returned from the cache untouched. -/
theorem unprepared_access_policy {Val : Type} (field_name : String)
    (instance_ : NamedDescriptor.Instance Val) (h : instance_.cache field_name = none) :
    NamedDescriptor.get field_name none (some instance_) = .unboundError ∧
      (∀ g, NamedDescriptor.get field_name (some g) (some instance_) =
        .unpreparedWarning (g instance_)) ∧
      (∀ (inst2 : NamedDescriptor.Instance Val) (name : String) (v : Val)
          (getter : Option (NamedDescriptor.Instance Val → Val)),
        inst2.cache name = some v →
          NamedDescriptor.get name getter (some inst2) = .value v) := by
  refine ⟨?_, ?_, ?_⟩
  · simp [NamedDescriptor.get, h]
  · intro g
    simp [NamedDescriptor.get, h]
  · intro inst2 name v getter h2
    simp [NamedDescriptor.get, h2]

/-- Concrete unprepared access for claim C8 on the bare instance. -/
theorem unprepared_access_policy_witness :
    (emptyInstance.cache "people_count" = none) ∧
      (NamedDescriptor.get "people_count" none (some emptyInstance) = .unboundError ∧
        (∀ g, NamedDescriptor.get "people_count" (some g) (some emptyInstance) =
          .unpreparedWarning (g emptyInstance)) ∧
        (∀ (inst2 : NamedDescriptor.Instance Nat) (name : String) (v : Nat)
            (getter : Option (NamedDescriptor.Instance Nat → Nat)),
          inst2.cache name = some v →
            NamedDescriptor.get name getter (some inst2) = .value v)) :=
  ⟨rfl, unprepared_access_policy "people_count" emptyInstance rfl⟩

/-- Claim C9: after `__set__` stores a value under the field name of the
descriptor, `__get__` on that instance returns exactly that value from the
cache, without consulting the getter and without the unprepared warning,
whatever getter was supplied. -/
theorem set_then_get_roundtrip {Val : Type} (field_name : String)
    (getter : Option (NamedDescriptor.Instance Val → Val))
    (instance_ : NamedDescriptor.Instance Val) (value : Val) :
    NamedDescriptor.get field_name getter
      (some (NamedDescriptor.set field_name value instance_)) = .value value := by
  simp [NamedDescriptor.get, NamedDescriptor.set]

/-- Arguments that fail the `isinstance` tests contribute nothing to either
`filterMap` of `prepare`. -/
lemma filterMap_filter_isProperty {β : Type} (f : PropertiedQueryset.PrepareArg → Option β)
    (hf : ∀ a, PropertiedQueryset.PrepareArg.isProperty a = false → f a = none) :
    ∀ args : List PropertiedQueryset.PrepareArg,
      (args.filter PropertiedQueryset.PrepareArg.isProperty).filterMap f = args.filterMap f := by
  intro args
  induction args with
  | nil => rfl
  | cons a rest ih =>
    cases hp : PropertiedQueryset.PrepareArg.isProperty a with
    | false =>
      rw [List.filter_cons, if_neg (by simp [hp]), List.filterMap_cons, hf a hp, ih]
    | true =>
      rw [List.filter_cons, if_pos (by simp [hp]), List.filterMap_cons, List.filterMap_cons, ih]

/-- Claim C10: `prepare` partitions its arguments strictly by type.  The
result is the same when the arguments that are neither annotated nor
prefetched properties are removed up front, and a call whose arguments are
all such foreign objects returns the queryset unchanged, with no error. -/
theorem prepare_partitions_by_type (deps : Nat → List Nat) (field_nameOf : Nat → String)
    (annotationOf : Nat → Nat) (qs : PropertiedQueryset.QS)
    (args : List PropertiedQueryset.PrepareArg) (fuel : Nat) :
    PropertiedQueryset.prepare deps field_nameOf annotationOf qs args fuel =
      PropertiedQueryset.prepare deps field_nameOf annotationOf qs
        (args.filter PropertiedQueryset.PrepareArg.isProperty) fuel ∧
      PropertiedQueryset.prepare deps field_nameOf annotationOf qs
        (args.filter fun a => ! PropertiedQueryset.PrepareArg.isProperty a) fuel = some qs := by
  constructor
  · unfold PropertiedQueryset.prepare
    rw [filterMap_filter_isProperty _
        (by intro a ha; cases a <;> simp_all [PropertiedQueryset.PrepareArg.isProperty]) args,
      filterMap_filter_isProperty _
        (by intro a ha; cases a <;> simp_all [PropertiedQueryset.PrepareArg.isProperty]) args]
  · have hmem : ∀ a ∈ args.filter (fun a => ! PropertiedQueryset.PrepareArg.isProperty a),
        PropertiedQueryset.PrepareArg.isProperty a = false := by
      intro a ha
      have := (List.mem_filter.mp ha).2
      simpa using this
    have h1 : (args.filter fun a => ! PropertiedQueryset.PrepareArg.isProperty a).filterMap
        (fun a => match a with | .annotated p => some p | _ => none) = [] := by
      rw [List.filterMap_eq_nil_iff]
      intro a ha
      have hfalse := hmem a ha
      cases a with
      | annotated p => simp [PropertiedQueryset.PrepareArg.isProperty] at hfalse
      | prefetched m q f => simp [PropertiedQueryset.PrepareArg.isProperty] at hfalse
      | other o => rfl
    have h2 : (args.filter fun a => ! PropertiedQueryset.PrepareArg.isProperty a).filterMap
        (fun a => match a with
          | PropertiedQueryset.PrepareArg.prefetched m q f => some (m, q, f)
          | _ => none) = [] := by
      rw [List.filterMap_eq_nil_iff]
      intro a ha
      have hfalse := hmem a ha
      cases a with
      | annotated p => simp [PropertiedQueryset.PrepareArg.isProperty] at hfalse
      | prefetched m q f => simp [PropertiedQueryset.PrepareArg.isProperty] at hfalse
      | other o => rfl
    unfold PropertiedQueryset.prepare
    rw [h1, h2]
    simp [PropertiedQueryset.annotate_properties, resolution_order, resolutionLoop_nil,
      PropertiedQueryset.prefetch_properties]

end PreparedProperties
